import Mathlib

/-!
Verification of the two pipelines of the repository:
  * src/scripts/bluesky_scraper.py : reservoir_sample (classifier, dedup,
    Algorithm R reservoir update) over a stream of JSON events;
  * src/scripts/hydrate_data.py : get_batch (HTTP batch fetch with retry and
    exponential backoff) and hydrate (batching loop, assembly).
The Python values produced by json.loads are modelled by the inductive type
Json below (Json.null is Python None).  Code that can raise a Python
exception is modelled in the Except monad, the error string naming the
exception class.
-/

/-- A parsed JSON value as produced by Python's json.loads.
    Json.null doubles as Python's None. -/
inductive Json where
  | null : Json
  | bool : Bool → Json
  | num : Int → Json
  | str : String → Json
  | arr : List Json → Json
  | obj : List (String × Json) → Json

/-- Python dict.get(k) restricted to distinguishing an absent key:
    on a dict returns the stored value if the key is present (none if absent);
    on any non-dict value (including None) raises AttributeError, because
    only dicts have a .get method. -/
def pyGetOpt (j : Json) (k : String) : Except String (Option Json) :=
  match j with
  | Json.obj kvs => Except.ok (kvs.lookup k)
  | _ => Except.error "AttributeError"

/-- Python d.get(k) with no default: an absent key and a stored JSON null
    both come back as Python None (modelled as Json.null). -/
def pyGet (j : Json) (k : String) : Except String Json :=
  (pyGetOpt j k).map (fun o => o.getD Json.null)

/-- Python truthiness of a parsed JSON value. -/
def truthy : Json → Bool
  | Json.null => false
  | Json.bool b => b
  | Json.num n => n != 0
  | Json.str s => s != ""
  | Json.arr xs => !xs.isEmpty
  | Json.obj kvs => !kvs.isEmpty

/-- Python string concatenation "..." + v : only a str value concatenates;
    anything else (including None) raises TypeError. -/
def asStr : Json → Except String String
  | Json.str s => Except.ok s
  | _ => Except.error "TypeError"

/-- Python `s in v` for a string s: membership for a list, substring test for
    a str, key membership for a dict, TypeError otherwise. -/
def pyContains (j : Json) (s : String) : Except String Bool :=
  match j with
  | Json.arr xs => Except.ok (xs.any (fun x => match x with | Json.str t => t == s | _ => false))
  | Json.str t => Except.ok ((t.splitOn s).length != 1)
  | Json.obj kvs => Except.ok (kvs.any (fun kv => kv.1 == s))
  | _ => Except.error "TypeError"

/-- The item dict built by reservoir_sample for an accepted event
    (bluesky_scraper.py lines 96-101): keys uri, did, rkey, record. -/
structure Item where
  uri : String
  did : String
  rkey : String
  record : Json

/-- The per-event classification and uri-synthesis block of reservoir_sample
    (bluesky_scraper.py lines 70-93): from `commit = evt.get("commit", \x7b\x7d)`
    down to the construction of `uri`.  Each `continue` is Except.ok none;
    an accepted event yields Except.ok (some item); a raised Python
    exception is Except.error. -/
def classify (evt : Json) : Except String (Option Item) :=
  match pyGetOpt evt "commit" with
  | Except.error m => Except.error m
  | Except.ok co =>
    -- commit = evt.get("commit", {}) : the default only fills in an absent key;
    -- below, co.getD (Json.obj []) is the value of the Python variable commit
    -- record = commit.get("record") : raises AttributeError unless commit is a dict
    match pyGet (co.getD (Json.obj [])) "record" with
    | Except.error m => Except.error m
    | Except.ok record =>
      -- if not commit: continue
      if truthy (co.getD (Json.obj [])) then
        -- if commit.get("operation") != "create": continue
        match pyGet (co.getD (Json.obj [])) "operation" with
        | Except.error m => Except.error m
        | Except.ok op =>
          if (match op with | Json.str s => s == "create" | _ => false) then
            -- if record.get("text") is None or record.get("text") == "": continue
            -- raises AttributeError when record is None (or any non-dict)
            match pyGet record "text" with
            | Except.error m => Except.error m
            | Except.ok text =>
              if (match text with | Json.null => true | Json.str s => s == "" | _ => false) then
                Except.ok none
              else
                -- if record.get("langs") is None: continue
                match pyGet record "langs" with
                | Except.error m => Except.error m
                | Except.ok langs =>
                  if (match langs with | Json.null => true | _ => false) then
                    Except.ok none
                  else
                    -- if "en" not in record.get("langs"): continue
                    match pyContains langs "en" with
                    | Except.error m => Except.error m
                    | Except.ok hasEn =>
                      if hasEn then
                        -- did = evt.get("did"); collection = commit.get("collection")
                        -- rkey = commit.get("rkey")
                        -- uri = "at://" + did + "/" + collection + "/" + rkey
                        -- (string concatenation raises TypeError on a non-str,
                        --  in the order did, collection, rkey)
                        match pyGet evt "did" with
                        | Except.error m => Except.error m
                        | Except.ok didv =>
                          match asStr didv with
                          | Except.error m => Except.error m
                          | Except.ok did =>
                            match pyGet (co.getD (Json.obj [])) "collection" with
                            | Except.error m => Except.error m
                            | Except.ok collv =>
                              match asStr collv with
                              | Except.error m => Except.error m
                              | Except.ok coll =>
                                match pyGet (co.getD (Json.obj [])) "rkey" with
                                | Except.error m => Except.error m
                                | Except.ok rkeyv =>
                                  match asStr rkeyv with
                                  | Except.error m => Except.error m
                                  | Except.ok rk =>
                                    Except.ok (some
                                      { uri := "at://" ++ did ++ "/" ++ coll ++ "/" ++ rk
                                        did := did
                                        rkey := rk
                                        record := record })
                      else Except.ok none
          else Except.ok none
      else Except.ok none

/-- The mutable state of reservoir_sample (bluesky_scraper.py lines 53-55):
    sample, seen_uris and n.  The Python set of uri strings is a Finset. -/
structure SamplerState where
  sample : List Item
  seen : Finset String
  n : Nat

/-- The reservoir placement of reservoir_sample (bluesky_scraper.py
    lines 103-108), given the value r drawn by random.randint(0, n - 1):
    append while below capacity, otherwise overwrite sample[r] when r < k. -/
def reservoirUpdate {α : Type} (k : Nat) (sample : List α) (item : α) (r : Nat) : List α :=
  if sample.length < k then sample ++ [item]
  else if r < k then sample.set r item
  else sample

/-- Modelled from the spec's words (section 4.3), for comparison with the
    source: Algorithm R's placement for the n-th item once n has been
    incremented: append below capacity, else overwrite sample[r] when the
    uniform draw r from [0, n-1] satisfies r < k, else discard. -/
def algorithmRStep {α : Type} (k : Nat) (sample : List α) (item : α) (r : Nat) : List α :=
  if sample.length < k then sample ++ [item]
  else if r < k then sample.set r item
  else sample

/-- One iteration of the while loop of reservoir_sample
    (bluesky_scraper.py lines 70-108) on a received event:
    classification, dedup against seen_uris, increment of n, and the
    reservoir placement.  rand n models random.randint(0, n - 1) (a uniform
    integer in [0, n-1] inclusive), queried at the already incremented n.
    The returned Option Item reports the accepted item, if any (ghost data
    used to state the invariants). -/
def processEvent (k : Nat) (rand : Nat → Nat) (st : SamplerState) (evt : Json) :
    Except String (SamplerState × Option Item) :=
  match classify evt with
  | Except.error m => Except.error m
  | Except.ok none => Except.ok (st, none)
  | Except.ok (some item) =>
    -- if uri in seen_uris: continue
    if item.uri ∈ st.seen then Except.ok (st, none)
    else
      -- seen_uris.add(uri); n += 1; pick_random = random.randint(0, n - 1)
      -- with the incremented count n = st.n + 1
      Except.ok ({ sample := reservoirUpdate k st.sample item (rand (st.n + 1)),
                   seen := insert item.uri st.seen, n := st.n + 1 }, some item)

/-- The event loop of reservoir_sample over a finite received stream,
    threading the state and the ghost list of accepted items. -/
def samplerLoop (k : Nat) (rand : Nat → Nat) (st : SamplerState) (acc : List Item) :
    List Json → Except String (SamplerState × List Item)
  | [] => Except.ok (st, acc)
  | e :: rest =>
    match processEvent k rand st e with
    | Except.error m => Except.error m
    | Except.ok (st', none) => samplerLoop k rand st' acc rest
    | Except.ok (st', some it) => samplerLoop k rand st' (acc ++ [it]) rest

/-- reservoir_sample (bluesky_scraper.py lines 42-111) on a finite stream of
    already-parsed events, starting from the empty reservoir. -/
def reservoir_sample (k : Nat) (rand : Nat → Nat) (evts : List Json) :
    Except String (SamplerState × List Item) :=
  samplerLoop k rand { sample := [], seen := ∅, n := 0 } [] evts

/-- The run invariant of reservoir_sample tying the state to the ghost list
    acc of accepted items: n counts accepted items, equals the size of
    seen_uris, the sample holds min n k items, accepted uris are pairwise
    distinct, recorded in seen_uris, and carry the synthesized at:// shape. -/
def InvS (k : Nat) (st : SamplerState) (acc : List Item) : Prop :=
  st.n = acc.length ∧ st.n = st.seen.card ∧ st.sample.length = min st.n k
    ∧ (acc.map Item.uri).Nodup ∧ (∀ it ∈ acc, it.uri ∈ st.seen)
    ∧ ∀ it ∈ acc, ∃ c, it.uri = "at://" ++ it.did ++ "/" ++ c ++ "/" ++ it.rkey

/-- hydrate_data.py line 18. -/
def BATCH_SIZE : Nat := 25

/-- Python min(x, cap) on two durations: x when x <= cap, else cap. -/
def capMin (x cap : ℚ) : ℚ := if x ≤ cap then x else cap

/-- An HTTP exchange as seen by get_batch: either a response (status,
    optional numeric Retry-After header, parsed JSON body) or a raised
    requests.RequestException.  Durations are rationals (the floats of the
    source carry no arithmetic beyond doubling, min and comparison here). -/
inductive HttpEvent where
  | resp (status : Nat) (retryAfter : Option ℚ) (body : Json) : HttpEvent
  | exn : HttpEvent

/-- The for-loop of get_batch (hydrate_data.py lines 33-60) over
    attempt = 0 .. retries, written with the number of remaining loop
    iterations (fuel = retries + 1 - attempt) as the structural argument.
    respF t is the exchange answering the t-th request (0-based); reqs
    counts requests made so far and waits records each time.sleep duration,
    in order.  Returns (result, total requests, sleeps); the result is the
    value returned by the Python function: data.get("posts") on a 200
    (an AttributeError if the body is not a dict), or the empty list. -/
def get_batchGo (respF : Nat → HttpEvent) (retries : Nat) (base : ℚ)
    (attempt : Nat) (reqs : Nat) (waits : List ℚ) (fuel : Nat) :
    Except String Json × Nat × List ℚ :=
  match fuel with
  | 0 => (Except.ok (Json.arr []), reqs, waits)   -- the dead `return []` after the loop
  | fuel' + 1 =>
    match respF reqs with
    | HttpEvent.exn =>
      -- except requests.RequestException
      if attempt < retries then
        get_batchGo respF retries base (attempt + 1) (reqs + 1)
          (waits ++ [capMin (base * 2 ^ attempt) 30]) fuel'
      else (Except.ok (Json.arr []), reqs + 1, waits)
    | HttpEvent.resp status retryAfter body =>
      if status == 200 then (pyGet body "posts", reqs + 1, waits)
      else if status == 429 || status == 500 || status == 502 || status == 503 || status == 504 then
        -- sleep_s = float(Retry-After) if the header is present,
        -- else base_backoff * (2 ** attempt); the sleep is min(sleep_s, 30.0)
        if attempt < retries then
          get_batchGo respF retries base (attempt + 1) (reqs + 1)
            (waits ++ [capMin (match retryAfter with
              | some t => t
              | none => base * 2 ^ attempt) 30]) fuel'
        else (Except.ok (Json.arr []), reqs + 1, waits)
      else (Except.ok (Json.arr []), reqs + 1, waits)

/-- get_batch (hydrate_data.py lines 20-61) with explicit retry budget and
    base backoff; the defaults of the source are retries = 4,
    base_backoff = 0.8. -/
def get_batch (respF : Nat → HttpEvent) (retries : Nat) (base : ℚ) :
    Except String Json × Nat × List ℚ :=
  get_batchGo respF retries base 0 0 [] (retries + 1)

/-- get_batch at its default arguments (retries = 4, base_backoff = 0.8). -/
def get_batchD (respF : Nat → HttpEvent) : Except String Json × Nat × List ℚ :=
  get_batch respF 4 (4 / 5)

/-- The handling of one fetched batch in hydrate (hydrate_data.py
    lines 82-99 and 103-120): r = get_batch(...); assert(r); for post in r.
    The assert raises AssertionError on a falsy r (None, or an empty list);
    iterating a truthy non-list raises TypeError.  On success the posts
    are returned in order. -/
def processBatchR (fetch : List Json → Json) (batch : List Json) :
    Except String (List Json) :=
  -- r = get_batch(session, batch), referenced twice below
  if truthy (fetch batch) then
    match fetch batch with
    | Json.arr posts => Except.ok posts
    | _ => Except.error "TypeError"
  else Except.error "AssertionError"

/-- The body of the item dict built per post in hydrate (hydrate_data.py
    lines 87-96): the trimmed shape with exactly the eight fields uri,
    author, record, like_count, reply_count, repost_count, bookmark_count,
    quote_count.  The source computes this dict and then discards it,
    appending the raw post instead. -/
def trimItem (post : Json) : Except String Json :=
  match pyGet post "uri" with
  | Except.error m => Except.error m
  | Except.ok uri =>
  match pyGet post "author" with
  | Except.error m => Except.error m
  | Except.ok author =>
  match pyGet post "record" with
  | Except.error m => Except.error m
  | Except.ok record =>
  match pyGet post "likeCount" with
  | Except.error m => Except.error m
  | Except.ok lc =>
  match pyGet post "replyCount" with
  | Except.error m => Except.error m
  | Except.ok rc =>
  match pyGet post "repostCount" with
  | Except.error m => Except.error m
  | Except.ok rpc =>
  match pyGet post "bookmarkCount" with
  | Except.error m => Except.error m
  | Except.ok bc =>
  match pyGet post "quoteCount" with
  | Except.error m => Except.error m
  | Except.ok qc =>
    Except.ok (Json.obj
      [("uri", uri), ("author", author), ("record", record), ("like_count", lc),
       ("reply_count", rc), ("repost_count", rpc), ("bookmark_count", bc),
       ("quote_count", qc)])

/-- The while loop of hydrate (hydrate_data.py lines 77-105) plus the final
    flush (lines 103-120), with the per-batch fetch abstracted as the
    oracle `fetch` (get_batch applied to the shared session).  The source
    loop either moves one uri from data into the open batch, or, when the
    batch is full, flushes it without consuming data[i]; after a flush the
    very next iteration necessarily refills, so the flush branch here
    performs that following move as well, making the recursion structural
    on the remaining data.  Appended to the source's state is the ghost
    list bs of batches passed to get_batch, in order.  Appending a raw
    post to corpus and hydrated += 1 happen per returned post; the trimmed
    item dict the source builds and discards is trimItem above. -/
def hydrateGo (fetch : List Json → Json) (remaining : List Json)
    (batch : List Json) (corpus : List Json) (hydrated : Nat)
    (bs : List (List Json)) : Except String (List Json × Nat × List (List Json)) :=
  match remaining with
  | [] =>
    -- if batch: r = get_batch(session, batch); assert(r); ...
    if batch.isEmpty then Except.ok (corpus, hydrated, bs)
    else
      match processBatchR fetch batch with
      | Except.error m => Except.error m
      | Except.ok posts =>
        Except.ok (corpus ++ posts, hydrated + posts.length, bs ++ [batch])
  | e :: rest =>
    if batch.length < BATCH_SIZE then
      -- batch.append(data[i].get("uri")); i += 1; continue
      match pyGet e "uri" with
      | Except.error m => Except.error m
      | Except.ok u => hydrateGo fetch rest (batch ++ [u]) corpus hydrated bs
    else
      -- r = get_batch(session, batch); assert(r); batch = []; for post in r: ...
      match processBatchR fetch batch with
      | Except.error m => Except.error m
      | Except.ok posts =>
        match pyGet e "uri" with
        | Except.error m => Except.error m
        | Except.ok u =>
          hydrateGo fetch rest [u] (corpus ++ posts) (hydrated + posts.length)
            (bs ++ [batch])

/-- hydrate (hydrate_data.py lines 63-121) on an already-parsed data list,
    returning (corpus, hydrated) plus the ghost batch trace. -/
def hydrate (fetch : List Json → Json) (data : List Json) :
    Except String (List Json × Nat × List (List Json)) :=
  hydrateGo fetch data [] [] 0 []

/-- The uri taken from a data entry by hydrate, totalized (Json.null on a
    failing entry); used only to state order preservation. -/
def uriOf (e : Json) : Json :=
  match pyGet e "uri" with
  | Except.ok u => u
  | Except.error _ => Json.null

/-- The key list of a JSON dict. -/
def Json.keys : Json → List String
  | Json.obj kvs => kvs.map Prod.fst
  | _ => []

/-- The batch trace of a hydrate result, when it did not raise. -/
def batchesOf (r : Except String (List Json × Nat × List (List Json))) :
    Option (List (List Json)) :=
  match r with
  | Except.ok (_, _, bs) => some bs
  | Except.error _ => none

/-- The reservoir placement loop of reservoir_sample (bluesky_scraper.py
    lines 95-108) specialised to a stream of distinct accepted, deduplicated
    items, identified with their 0-based arrival index: item i is the
    (i+1)-st accepted item.  While the sample is below capacity the item is
    appended and no randomness is consumed; afterwards the head draw d of ds
    stands for the value of random.randint(0, n - 1) at that step (n being
    the incremented count, so 0 <= d <= i), and the update is exactly
    reservoirUpdate, the placement used by processEvent. -/
def runR (k : Nat) (s : List Nat) (items : List Nat) (ds : List Nat) : List Nat :=
  match items with
  | [] => s
  | it :: rest =>
    if s.length < k then runR k (s ++ [it]) rest ds
    else
      match ds with
      | [] => s
      | d :: ds' => runR k (reservoirUpdate k s it d) rest ds'

/-- The probability space of reservoir draws: drawsF i len is the finset of
    all sequences of values for random.randint(0, n - 1) over the steps
    processing items i, i+1, ..., i+len-1 (at the step for item i the
    incremented count is n = i + 1, so the draw ranges over 0..i).  All
    sequences are equiprobable since each randint is uniform and
    independent. -/
def drawsF : Nat → Nat → Finset (List Nat)
  | _, 0 => {[]}
  | i, len + 1 =>
    (Finset.range (i + 1)).biUnion
      (fun d => (drawsF (i + 1) len).image (fun ds => d :: ds))

/-- The number of equiprobable draw sequences. -/
def totalD (i len : Nat) : Nat := (drawsF i len).card

/-- Reservoir invariant after processing the first i items with i >= k:
    the sample holds exactly k distinct items among 0..i-1. -/
def InvR (k : Nat) (s : List Nat) (i : Nat) : Prop :=
  s.length = k ∧ s.Nodup ∧ ∀ x ∈ s, x < i

/-- A fully well-formed qualifying event, used to instantiate theorems. -/
def evtA : Json := Json.obj [("did", Json.str "d"), ("commit", Json.obj
    [("operation", Json.str "create"), ("collection", Json.str "c"), ("rkey", Json.str "r"),
     ("record", Json.obj [("text", Json.str "hi"), ("langs", Json.arr [Json.str "en"])])])]

/-- The item reservoir_sample builds from evtA. -/
def itemA : Item := Item.mk "at://d/c/r" "d" "r"
    (Json.obj [("text", Json.str "hi"), ("langs", Json.arr [Json.str "en"])])

/-- A mock endpoint answering 429 to the first three requests and 200 with
    one post afterwards. -/
def respF429 : Nat → HttpEvent := fun t =>
  if t < 3 then HttpEvent.resp 429 none Json.null
  else HttpEvent.resp 200 none (Json.obj [("posts", Json.arr [Json.str "p"])])

/-- A mock endpoint always answering 404. -/
def respF404 : Nat → HttpEvent := fun _ => HttpEvent.resp 404 none Json.null

/-- 103 data entries with distinct uri fields. -/
def data103 : List Json := (List.range 103).map (fun i => Json.obj [("uri", Json.num i)])

/-- A fetch oracle that always resolves a batch to one post. -/
def fetchA : List Json → Json := fun _ => Json.arr [Json.null]

/-- Whether an HTTP exchange carries no Retry-After header. -/
def noRetryAfter : HttpEvent → Bool
  | HttpEvent.resp _ ra _ => ra.isNone
  | HttpEvent.exn => true

/-- The state reservoir_sample reaches with k = 1 on the stream
    [evtA, evtA] (the duplicate is discarded). -/
def stA : SamplerState := SamplerState.mk [itemA] {"at://d/c/r"} 1

/-- A one-entry data list. -/
def data1 : List Json := [Json.obj [("uri", Json.str "a")]]

/-- A full API post payload: the eight camelCase source fields plus one
    extra field (indexedAt), as real responses carry. -/
def post8 : Json := Json.obj
  [("uri", Json.str "u"), ("author", Json.obj [("did", Json.str "d")]),
   ("record", Json.obj [("text", Json.str "hi")]), ("likeCount", Json.num 1),
   ("replyCount", Json.num 2), ("repostCount", Json.num 3),
   ("bookmarkCount", Json.num 4), ("quoteCount", Json.num 5),
   ("indexedAt", Json.str "2026-01-01")]

/-- The trimmed eight-field item hydrate builds (and discards) from post8. -/
def trimmed8 : Json := Json.obj
  [("uri", Json.str "u"), ("author", Json.obj [("did", Json.str "d")]),
   ("record", Json.obj [("text", Json.str "hi")]), ("like_count", Json.num 1),
   ("reply_count", Json.num 2), ("repost_count", Json.num 3),
   ("bookmark_count", Json.num 4), ("quote_count", Json.num 5)]

/-! Helper lemmas for the uniformity analysis of the reservoir. -/

-- membership characterisation
lemma mem_drawsF_succ {i len : Nat} {ds : List Nat} :
    ds ∈ drawsF i (len + 1) ↔
      ∃ d, d < i + 1 ∧ ∃ ds', ds' ∈ drawsF (i + 1) len ∧ d :: ds' = ds := by
  simp [drawsF, Finset.mem_biUnion, Finset.mem_image, Finset.mem_range]

lemma drawsF_nonempty (i len : Nat) : (drawsF i len).Nonempty := by
  induction len generalizing i with
  | zero => exact ⟨[], by simp [drawsF]⟩
  | succ len ih =>
    obtain ⟨ds, hds⟩ := ih (i + 1)
    exact ⟨0 :: ds, mem_drawsF_succ.mpr ⟨0, Nat.succ_pos i, ds, hds, rfl⟩⟩

lemma totalD_pos (i len : Nat) : 0 < totalD i len :=
  Finset.card_pos.mpr (drawsF_nonempty i len)

lemma filter_card_drawsF_succ (i len : Nat) (P : List Nat → Prop) [DecidablePred P] :
    ((drawsF i (len + 1)).filter P).card
      = ∑ d in Finset.range (i + 1),
          ((drawsF (i + 1) len).filter (fun ds => P (d :: ds))).card := by
  rw [drawsF, Finset.filter_biUnion, Finset.card_biUnion]
  · apply Finset.sum_congr rfl
    intro d _
    rw [Finset.filter_image, Finset.card_image_of_injective]
    intro a b hab
    exact List.tail_eq_of_cons_eq hab
  · intro x _ y _ hxy
    apply Finset.disjoint_left.mpr
    intro a ha hb
    rw [Finset.filter_image, Finset.mem_image] at ha hb
    obtain ⟨u, _, hu⟩ := ha
    obtain ⟨v, _, hv⟩ := hb
    rw [← hu] at hv
    exact hxy (List.cons_eq_cons.mp hv).1.symm

lemma totalD_succ (i len : Nat) : totalD i (len + 1) = (i + 1) * totalD (i + 1) len := by
  have := filter_card_drawsF_succ i len (fun _ => True)
  simp only [Finset.filter_True] at this
  simpa [totalD, Finset.sum_const, Nat.smul_one_eq_cast] using this

-- list helpers
lemma nodup_set_of_not_mem {s : List Nat} {d a : Nat}
    (h : s.Nodup) (ha : a ∉ s) : (s.set d a).Nodup := by
  induction s generalizing d with
  | nil => simp
  | cons x xs ih =>
    cases d with
    | zero =>
      simp only [List.set]
      exact List.nodup_cons.mpr ⟨fun hx => ha (List.mem_cons_of_mem _ hx),
        (List.nodup_cons.mp h).2⟩
    | succ d =>
      simp only [List.set]
      refine List.nodup_cons.mpr ⟨?_, ih (List.nodup_cons.mp h).2
        (fun hx => ha (List.mem_cons_of_mem _ hx)) ⟩
      intro hx
      rcases List.mem_or_eq_of_mem_set hx with hx' | rfl
      · exact (List.nodup_cons.mp h).1 hx'
      · exact ha (List.mem_cons_self _ _)

lemma mem_set_of_mem_of_ne {s : List Nat} {d a j : Nat} {p : Nat}
    (hp : p < s.length) (hget : s.get ⟨p, hp⟩ = j) (hpd : p ≠ d) :
    j ∈ s.set d a := by
  have hp' : p < (s.set d a).length := by rw [List.length_set]; exact hp
  have : (s.set d a).get ⟨p, hp'⟩ = j := by
    rw [List.get_eq_getElem, List.getElem_set_ne (fun h => hpd h.symm)]
    rw [List.get_eq_getElem] at hget
    exact hget
  rw [← this]
  exact List.get_mem _ _ _

lemma not_mem_set_self {s : List Nat} {a j : Nat} {p : Nat}
    (hnd : s.Nodup) (hp : p < s.length) (hget : s.get ⟨p, hp⟩ = j) (ha : a ≠ j) :
    j ∉ s.set p a := by
  intro hmem
  obtain ⟨⟨q, hq⟩, hqget⟩ := List.mem_iff_get.mp hmem
  have hq' : q < s.length := by rw [List.length_set] at hq; exact hq
  rw [List.get_eq_getElem] at hqget hget
  by_cases hqp : q = p
  · subst hqp
    rw [List.getElem_set_self hq] at hqget
    exact ha hqget
  · rw [List.getElem_set_ne (fun h => hqp h.symm)] at hqget
    have heq : s.get ⟨q, hq'⟩ = s.get ⟨p, hp⟩ := by
      rw [List.get_eq_getElem, List.get_eq_getElem, hqget, hget]
    have := List.nodup_iff_injective_get.mp hnd heq
    exact hqp (congrArg Fin.val this)

lemma mem_set_self {s : List Nat} {d a : Nat} (hd : d < s.length) :
    a ∈ s.set d a := by
  have hd' : d < (s.set d a).length := by rw [List.length_set]; exact hd
  have hh : (s.set d a).get ⟨d, hd'⟩ = a := by
    rw [List.get_eq_getElem, List.getElem_set_self hd']
  have hmem := List.get_mem (s.set d a) d hd'
  rw [hh] at hmem
  exact hmem

lemma InvR_k_le {k : Nat} {s : List Nat} {i : Nat} (h : InvR k s i) : k ≤ i := by
  obtain ⟨hlen, hnd, hb⟩ := h
  have h1 : s.toFinset.card = s.length := List.toFinset_card_of_nodup hnd
  have h2 : s.toFinset ⊆ Finset.range i := by
    intro x hx
    exact Finset.mem_range.mpr (hb x (List.mem_toFinset.mp hx))
  have := Finset.card_le_card h2
  rw [h1, Finset.card_range, hlen] at this
  exact this

-- invariant preservation through one reservoir step on the fresh item i
lemma InvR_update {k : Nat} {s : List Nat} {i d : Nat} (h : InvR k s i) :
    InvR k (reservoirUpdate k s i d) (i + 1) := by
  obtain ⟨hlen, hnd, hb⟩ := h
  have hnotlt : ¬ s.length < k := by omega
  have hinotmem : i ∉ s := fun hi => lt_irrefl i (hb i hi)
  unfold reservoirUpdate
  rw [if_neg hnotlt]
  by_cases hdk : d < k
  · rw [if_pos hdk]
    refine ⟨by rw [List.length_set]; exact hlen, nodup_set_of_not_mem hnd hinotmem, ?_⟩
    intro x hx
    rcases List.mem_or_eq_of_mem_set hx with hx' | rfl
    · exact Nat.lt_succ_of_lt (hb x hx')
    · exact Nat.lt_succ_self x
  · rw [if_neg hdk]
    exact ⟨hlen, hnd, fun x hx => Nat.lt_succ_of_lt (hb x hx)⟩

-- Lemma B: an item that has already left (or never entered) the reservoir
-- can never be in the final sample
lemma runR_not_mem (k : Nat) : ∀ (len i : Nat) (s : List Nat) (j : Nat),
    InvR k s i → j < i → j ∉ s →
    ∀ ds ∈ drawsF i len, j ∉ runR k s (List.range' i len) ds := by
  intro len
  induction len with
  | zero =>
    intro i s j _ _ hjs ds _
    simpa [List.range', runR] using hjs
  | succ len ih =>
    intro i s j hInv hj hjs ds hds
    obtain ⟨d, hd, ds', hds', rfl⟩ := mem_drawsF_succ.mp hds
    have hnotlt : ¬ s.length < k := by have := hInv.1; omega
    rw [List.range'_succ]
    show j ∉ runR k s (i :: List.range' (i + 1) len) (d :: ds')
    rw [runR, if_neg hnotlt]
    apply ih (i + 1) _ j (InvR_update hInv) (Nat.lt_succ_of_lt hj) ?_ ds' hds'
    intro hmem
    unfold reservoirUpdate at hmem
    rw [if_neg hnotlt] at hmem
    by_cases hdk : d < k
    · rw [if_pos hdk] at hmem
      rcases List.mem_or_eq_of_mem_set hmem with hx' | rfl
      · exact hjs hx'
      · exact lt_irrefl j hj
    · rw [if_neg hdk] at hmem
      exact hjs hmem

-- Lemma A: an item currently in the reservoir survives with probability i/(i+len)
lemma runR_count_mem (k : Nat) : ∀ (len i : Nat) (s : List Nat) (j : Nat),
    InvR k s i → j ∈ s →
    ((drawsF i len).filter (fun ds => j ∈ runR k s (List.range' i len) ds)).card * (i + len)
      = totalD i len * i := by
  intro len
  induction len with
  | zero =>
    intro i s j _ hj
    have hfe : (drawsF i 0).filter (fun ds => j ∈ runR k s (List.range' i 0) ds)
        = drawsF i 0 := by
      apply Finset.filter_eq_self.mpr
      intro x _
      simpa [runR] using hj
    rw [hfe, Nat.add_zero]
    rfl
  | succ len ih =>
    intro i s j hInv hj
    have hnotlt : ¬ s.length < k := by have := hInv.1; omega
    have hstep : ∀ (d : Nat) (ds' : List Nat),
        runR k s (List.range' i (len + 1)) (d :: ds')
          = runR k (reservoirUpdate k s i d) (List.range' (i + 1) len) ds' := by
      intro d ds'
      rw [List.range'_succ]
      simp only [runR]
      rw [if_neg hnotlt]
    obtain ⟨⟨p, hp⟩, hpget⟩ := List.mem_iff_get.mp hj
    have hji : j < i := hInv.2.2 j hj
    have hki : k ≤ i := InvR_k_le hInv
    have hpk : p < k := hInv.1 ▸ hp
    have hpi : p ∈ Finset.range (i + 1) := Finset.mem_range.mpr (by omega)
    rw [filter_card_drawsF_succ]
    simp only [hstep]
    have hzero : ((drawsF (i + 1) len).filter
        (fun ds' => j ∈ runR k (reservoirUpdate k s i p) (List.range' (i + 1) len) ds')).card
        = 0 := by
      rw [Finset.card_eq_zero, Finset.filter_eq_empty_iff]
      intro ds hds
      apply runR_not_mem k len (i + 1) _ j (InvR_update hInv) (by omega) ?_ ds hds
      unfold reservoirUpdate
      rw [if_neg hnotlt, if_pos hpk]
      exact not_mem_set_self hInv.2.1 hp hpget (by omega)
    have hval : ∀ d ∈ (Finset.range (i + 1)).erase p,
        ((drawsF (i + 1) len).filter
          (fun ds' => j ∈ runR k (reservoirUpdate k s i d) (List.range' (i + 1) len) ds')).card
          * (i + 1 + len) = totalD (i + 1) len * (i + 1) := by
      intro d hd
      have hdp : d ≠ p := Finset.ne_of_mem_erase hd
      apply ih (i + 1) (reservoirUpdate k s i d) j (InvR_update hInv)
      unfold reservoirUpdate
      rw [if_neg hnotlt]
      by_cases hdk : d < k
      · rw [if_pos hdk]
        exact mem_set_of_mem_of_ne hp hpget (fun h => hdp h.symm)
      · rw [if_neg hdk]
        exact hj
    have hXrw : i + (len + 1) = i + 1 + len := by omega
    rw [hXrw, Finset.sum_mul, ← Finset.sum_erase_add _ _ hpi, hzero, Nat.zero_mul,
      Nat.add_zero, Finset.sum_congr rfl hval, Finset.sum_const,
      Finset.card_erase_of_mem hpi, Finset.card_range, smul_eq_mul, totalD_succ]
    simp only [Nat.add_sub_cancel]
    ring

-- Lemma C: a future item ends in the final sample with probability k/(i+len)
lemma runR_count_future (k : Nat) : ∀ (len i : Nat) (s : List Nat) (j : Nat),
    InvR k s i → i ≤ j → j < i + len →
    ((drawsF i len).filter (fun ds => j ∈ runR k s (List.range' i len) ds)).card * (i + len)
      = totalD i len * k := by
  intro len
  induction len with
  | zero =>
    intro i s j _ hij hji
    omega
  | succ len ih =>
    intro i s j hInv hij hji
    have hnotlt : ¬ s.length < k := by have := hInv.1; omega
    have hki : k ≤ i := InvR_k_le hInv
    have hstep : ∀ (d : Nat) (ds' : List Nat),
        runR k s (List.range' i (len + 1)) (d :: ds')
          = runR k (reservoirUpdate k s i d) (List.range' (i + 1) len) ds' := by
      intro d ds'
      rw [List.range'_succ]
      simp only [runR]
      rw [if_neg hnotlt]
    rw [filter_card_drawsF_succ]
    simp only [hstep]
    rcases Nat.eq_or_lt_of_le hij with hji' | hji'
    · -- j = i : the current item; it enters the reservoir iff d < k
      subst hji'
      have hval : ∀ d ∈ Finset.range (i + 1),
          ((drawsF (i + 1) len).filter
            (fun ds' => i ∈ runR k (reservoirUpdate k s i d) (List.range' (i + 1) len) ds')).card
            * (i + 1 + len)
            = if d < k then totalD (i + 1) len * (i + 1) else 0 := by
        intro d _
        by_cases hdk : d < k
        · rw [if_pos hdk]
          apply runR_count_mem k len (i + 1) _ i (InvR_update hInv)
          unfold reservoirUpdate
          rw [if_neg hnotlt, if_pos hdk]
          exact mem_set_self (by omega)
        · rw [if_neg hdk]
          have hzero : ((drawsF (i + 1) len).filter
              (fun ds' => i ∈ runR k (reservoirUpdate k s i d) (List.range' (i + 1) len) ds')).card
              = 0 := by
            rw [Finset.card_eq_zero, Finset.filter_eq_empty_iff]
            intro ds hds
            apply runR_not_mem k len (i + 1) _ i (InvR_update hInv) (by omega) ?_ ds hds
            unfold reservoirUpdate
            rw [if_neg hnotlt, if_neg hdk]
            exact fun hmem => lt_irrefl i (hInv.2.2 i hmem)
          rw [hzero, Nat.zero_mul]
      have hXrw : i + (len + 1) = i + 1 + len := by omega
      rw [hXrw, Finset.sum_mul]
      rw [Finset.sum_congr rfl hval]
      rw [Finset.sum_ite, Finset.sum_const, Finset.sum_const, smul_eq_mul, smul_eq_mul,
        Nat.mul_zero, Nat.add_zero]
      have hfilter : (Finset.range (i + 1)).filter (fun d => d < k) = Finset.range k := by
        apply Finset.ext
        intro d
        simp only [Finset.mem_filter, Finset.mem_range]
        omega
      rw [hfilter, Finset.card_range, totalD_succ]
      ring
    · -- i < j : every branch keeps j a strictly future item
      have hval : ∀ d ∈ Finset.range (i + 1),
          ((drawsF (i + 1) len).filter
            (fun ds' => j ∈ runR k (reservoirUpdate k s i d) (List.range' (i + 1) len) ds')).card
            * (i + 1 + len) = totalD (i + 1) len * k := by
        intro d _
        exact ih (i + 1) (reservoirUpdate k s i d) j (InvR_update hInv) hji' (by omega)
      have hXrw : i + (len + 1) = i + 1 + len := by omega
      rw [hXrw, Finset.sum_mul, Finset.sum_congr rfl hval, Finset.sum_const,
        Finset.card_range, smul_eq_mul, totalD_succ]
      ring

-- filling phase: the first k distinct items enter the reservoir unconditionally
lemma runR_fill (k N : Nat) (hkN : k ≤ N) :
    ∀ ds, runR k [] (List.range N) ds
      = runR k (List.range k) (List.range' k (N - k)) ds := by
  suffices h : ∀ (m c : Nat), c + m = k → k ≤ N → ∀ ds,
      runR k (List.range c) (List.range' c (N - c)) ds
        = runR k (List.range k) (List.range' k (N - k)) ds by
    intro ds
    have := h k 0 (by omega) hkN ds
    simpa [List.range_eq_range'] using this
  intro m
  induction m with
  | zero =>
    intro c hc _ ds
    have : c = k := by omega
    subst this
    rfl
  | succ m ih =>
    intro c hc hkN' ds
    have hck : c < k := by omega
    have hcN : c < N := by omega
    have hlen : (List.range c).length = c := List.length_range c
    have hNc : N - c = (N - (c + 1)) + 1 := by omega
    rw [hNc, List.range'_succ]
    simp only [runR]
    rw [if_pos (by rw [hlen]; exact hck)]
    rw [← List.range_succ]
    exact ih (c + 1) (by omega) hkN' ds

theorem reservoir_uniform_nat (N k j : Nat) (hk : k ≤ N) (hj : j < N) :
    ((drawsF k (N - k)).filter (fun ds => j ∈ runR k [] (List.range N) ds)).card * N
      = totalD k (N - k) * k := by
  have hNk : k + (N - k) = N := by omega
  have hfe : (drawsF k (N - k)).filter (fun ds => j ∈ runR k [] (List.range N) ds)
      = (drawsF k (N - k)).filter
          (fun ds => j ∈ runR k (List.range k) (List.range' k (N - k)) ds) := by
    apply Finset.filter_congr
    intro ds _
    rw [runR_fill k N hk ds]
  have hInv : InvR k (List.range k) k :=
    ⟨List.length_range k, List.nodup_range k, fun x hx => List.mem_range.mp hx⟩
  rw [hfe]
  by_cases hjk : j < k
  · have h := runR_count_mem k (N - k) k (List.range k) j hInv (List.mem_range.mpr hjk)
    rw [hNk] at h
    exact h
  · have h := runR_count_future k (N - k) k (List.range k) j hInv (by omega) (by omega)
    rw [hNk] at h
    exact h



/-! Invariants of the sampler loop. -/

lemma classify_shape {evt : Json} {it : Item} (h : classify evt = Except.ok (some it)) :
    ∃ c, it.uri = "at://" ++ it.did ++ "/" ++ c ++ "/" ++ it.rkey := by
  unfold classify at h
  repeat' split at h
  all_goals simp_all
  subst h
  exact ⟨_, rfl⟩

lemma processEvent_cases (k : Nat) (rand : Nat → Nat) (st : SamplerState) (evt : Json)
    (res : SamplerState × Option Item)
    (h : processEvent k rand st evt = Except.ok res) :
    res = (st, none)
    ∨ ∃ it, classify evt = Except.ok (some it) ∧ it.uri ∉ st.seen
        ∧ res = ({ sample := reservoirUpdate k st.sample it (rand (st.n + 1)),
                   seen := insert it.uri st.seen, n := st.n + 1 }, some it) := by
  unfold processEvent at h
  split at h
  · exact absurd h (by simp)
  · injection h with h
    exact Or.inl h.symm
  · rename_i item heq
    split at h
    · injection h with h
      exact Or.inl h.symm
    · injection h with h
      rename_i hnew
      exact Or.inr ⟨item, heq, hnew, h.symm⟩

lemma reservoirUpdate_length {α : Type} (k : Nat) (s : List α) (a : α) (r : Nat) :
    (reservoirUpdate k s a r).length
      = if s.length < k then s.length + 1 else s.length := by
  unfold reservoirUpdate
  split
  · simp
  · split
    · simp [List.length_set]
    · rfl

lemma InvS_step {k : Nat} {rand : Nat → Nat} {st : SamplerState} {evt : Json}
    {it : Item} {acc : List Item}
    (hcl : classify evt = Except.ok (some it)) (hnew : it.uri ∉ st.seen)
    (hInv : InvS k st acc) :
    InvS k { sample := reservoirUpdate k st.sample it (rand (st.n + 1)),
             seen := insert it.uri st.seen, n := st.n + 1 } (acc ++ [it]) := by
  obtain ⟨h1, h2, h3, h4, h5, h6⟩ := hInv
  refine ⟨?_, ?_, ?_, ?_, ?_, ?_⟩
  · simp [h1]
  · simp [Finset.card_insert_of_not_mem hnew, h2]
  · rw [reservoirUpdate_length]
    simp only []
    rw [h3]
    by_cases hc : st.n < k
    · rw [if_pos (by omega)]
      omega
    · rw [if_neg (by omega)]
      omega
  · rw [List.map_append]
    simp only [List.map_cons, List.map_nil]
    rw [List.nodup_append]
    refine ⟨h4, List.nodup_singleton _, ?_⟩
    intro u hu
    simp only [List.mem_singleton]
    intro hun
    subst hun
    obtain ⟨it', hit', huri⟩ := List.mem_map.mp hu
    exact hnew (huri ▸ h5 it' hit')
  · intro it' hit'
    rcases List.mem_append.mp hit' with hold | hnewm
    · exact Finset.mem_insert_of_mem (h5 it' hold)
    · rw [List.mem_singleton.mp hnewm]
      exact Finset.mem_insert_self _ _
  · intro it' hit'
    rcases List.mem_append.mp hit' with hold | hnewm
    · exact h6 it' hold
    · rw [List.mem_singleton.mp hnewm]
      exact classify_shape hcl

lemma samplerLoop_inv (k : Nat) (rand : Nat → Nat) :
    ∀ (evts : List Json) (st : SamplerState) (acc : List Item)
      (st' : SamplerState) (acc' : List Item), InvS k st acc →
      samplerLoop k rand st acc evts = Except.ok (st', acc') → InvS k st' acc' := by
  intro evts
  induction evts with
  | nil =>
    intro st acc st' acc' hInv h
    rw [samplerLoop] at h
    injection h with h
    injection h with h1 h2
    subst h1
    subst h2
    exact hInv
  | cons e rest ih =>
    intro st acc st' acc' hInv h
    rw [samplerLoop] at h
    split at h
    · exact absurd h (by simp)
    · rename_i st2 heq
      rcases processEvent_cases k rand st e _ heq with hres | ⟨it2, hcl, hnew, hres⟩
      · rw [Prod.mk.injEq] at hres
        obtain ⟨hfst, _⟩ := hres
        subst hfst
        exact ih _ _ st' acc' hInv h
      · rw [Prod.mk.injEq] at hres
        exact absurd hres.2 (by simp)
    · rename_i st2 it heq
      rcases processEvent_cases k rand st e _ heq with hres | ⟨it2, hcl, hnew, hres⟩
      · rw [Prod.mk.injEq] at hres
        exact absurd hres.2 (by simp)
      · rw [Prod.mk.injEq] at hres
        obtain ⟨hfst, hsnd⟩ := hres
        have hit : it = it2 := Option.some.inj hsnd
        subst hit
        subst hfst
        exact ih _ _ st' acc' (InvS_step hcl hnew hInv) h

lemma InvS_init (k : Nat) : InvS k { sample := [], seen := ∅, n := 0 } [] := by
  refine ⟨rfl, by simp, by simp, by simp, by simp, by simp⟩

lemma reservoir_sample_inv (k : Nat) (rand : Nat → Nat) (evts : List Json)
    (st : SamplerState) (acc : List Item)
    (h : reservoir_sample k rand evts = Except.ok (st, acc)) : InvS k st acc :=
  samplerLoop_inv k rand evts _ _ st acc (InvS_init k) h

/-! Properties of the hydrate loop. -/

lemma processBatchR_ok {fetch : List Json → Json} {batch posts : List Json}
    (hfb : fetch batch = Json.arr posts) (hne : posts ≠ []) :
    processBatchR fetch batch = Except.ok posts := by
  have hie : posts.isEmpty = false := by
    cases posts with
    | nil => exact absurd rfl hne
    | cons x xs => rfl
  unfold processBatchR
  rw [hfb]
  simp [truthy, hie]

lemma hydrateGo_spec (fetch : List Json → Json)
    (hF : ∀ b, ∃ posts, posts ≠ [] ∧ fetch b = Json.arr posts) :
    ∀ (remaining : List Json) (batch corpus : List Json) (hyd : Nat)
      (bs : List (List Json)),
      (∀ e ∈ remaining, ∃ u, pyGet e "uri" = Except.ok u) →
      batch.length ≤ BATCH_SIZE →
      ∃ corpus' hyd' bs', hydrateGo fetch remaining batch corpus hyd bs
          = Except.ok (corpus', hyd', bs ++ bs')
        ∧ bs'.flatten = batch ++ remaining.map uriOf
        ∧ (∀ b ∈ bs', b.length ≤ BATCH_SIZE ∧ b ≠ [])
        ∧ (∀ b ∈ bs'.dropLast, b.length = BATCH_SIZE) := by
  intro remaining
  induction remaining with
  | nil =>
    intro batch corpus hyd bs _ hBlen
    by_cases hb : batch.isEmpty
    · refine ⟨corpus, hyd, [], ?_, ?_, by simp, by simp⟩
      · rw [hydrateGo, if_pos hb]
        simp
      · simp [List.isEmpty_iff.mp hb]
    · obtain ⟨posts, hne, hfb⟩ := hF batch
      refine ⟨corpus ++ posts, hyd + posts.length, [batch], ?_, by simp, ?_, by simp⟩
      · rw [hydrateGo, if_neg hb, processBatchR_ok hfb hne]
      · intro b hbmem
        rw [List.mem_singleton] at hbmem
        subst hbmem
        exact ⟨hBlen, fun hB => hb (by rw [hB]; rfl)⟩
  | cons e rest ih =>
    intro batch corpus hyd bs hE hBlen
    obtain ⟨u, hu⟩ := hE e (List.mem_cons_self e rest)
    have hE' : ∀ e' ∈ rest, ∃ u', pyGet e' "uri" = Except.ok u' :=
      fun e' he' => hE e' (List.mem_cons_of_mem e he')
    have huriOf : uriOf e = u := by rw [uriOf, hu]
    by_cases hlt : batch.length < BATCH_SIZE
    · obtain ⟨c', h', bs', hrun, hjoin, hprops, hlast⟩ :=
        ih (batch ++ [u]) corpus hyd bs hE' (by simp; omega)
      refine ⟨c', h', bs', ?_, ?_, hprops, hlast⟩
      · rw [hydrateGo, if_pos hlt, hu]
        exact hrun
      · rw [hjoin, List.map_cons, huriOf]
        simp
    · obtain ⟨posts, hne, hfb⟩ := hF batch
      obtain ⟨c', h', bs', hrun, hjoin, hprops, hlast⟩ :=
        ih [u] (corpus ++ posts) (hyd + posts.length) (bs ++ [batch]) hE'
          (by simp [BATCH_SIZE])
      have hBlen25 : batch.length = BATCH_SIZE := by omega
      refine ⟨c', h', batch :: bs', ?_, ?_, ?_, ?_⟩
      · rw [hydrateGo, if_neg hlt, processBatchR_ok hfb hne, hu]
        simpa [List.append_assoc] using hrun
      · rw [List.flatten_cons, hjoin, List.map_cons, huriOf]
        simp
      · intro b hbmem
        rcases List.mem_cons.mp hbmem with hb | hb
        · subst hb
          refine ⟨le_of_eq hBlen25, ?_⟩
          intro hBnil
          rw [hBnil] at hBlen25
          simp [BATCH_SIZE] at hBlen25
        · exact hprops b hb
      · intro b hbmem
        cases bs' with
        | nil => simp at hbmem
        | cons x xs =>
          rw [List.dropLast_cons₂] at hbmem
          rcases List.mem_cons.mp hbmem with hb | hb
          · subst hb
            exact hBlen25
          · exact hlast b hb

/-! Properties of the retry loop of get_batch. -/

lemma capMin_le (x cap : ℚ) : capMin x cap ≤ cap := by
  unfold capMin
  split
  · assumption
  · exact le_refl cap

lemma get_batchGo_waits_le (respF : Nat → HttpEvent) (retries : Nat) (base : ℚ) :
    ∀ (fuel attempt reqs : Nat) (waits : List ℚ),
      (∀ w ∈ waits, w ≤ 30) →
      ∀ w ∈ (get_batchGo respF retries base attempt reqs waits fuel).2.2, w ≤ 30 := by
  intro fuel
  induction fuel with
  | zero =>
    intro attempt reqs waits hw w hwmem
    exact hw w hwmem
  | succ fuel ih =>
    intro attempt reqs waits hw w hwmem
    rw [get_batchGo] at hwmem
    have hext : ∀ (x : ℚ), ∀ w' ∈ waits ++ [capMin x 30], w' ≤ 30 := by
      intro x w' hw'
      rcases List.mem_append.mp hw' with h | h
      · exact hw w' h
      · rw [List.mem_singleton.mp h]
        exact capMin_le x 30
    split at hwmem
    · split at hwmem
      · exact ih _ _ _ (hext _) w hwmem
      · exact hw w hwmem
    · split at hwmem
      · exact hw w hwmem
      · split at hwmem
        · split at hwmem
          · exact ih _ _ _ (hext _) w hwmem
          · exact hw w hwmem
        · exact hw w hwmem

lemma get_batchGo_waits_pattern (respF : Nat → HttpEvent) (retries : Nat) (base : ℚ)
    (hra : ∀ t, noRetryAfter (respF t) = true) :
    ∀ (fuel attempt reqs : Nat) (waits : List ℚ),
      ∃ m, (get_batchGo respF retries base attempt reqs waits fuel).2.2
        = waits ++ (List.range m).map (fun t => capMin (base * 2 ^ (attempt + t)) 30) := by
  intro fuel
  induction fuel with
  | zero =>
    intro attempt reqs waits
    exact ⟨0, by simp [get_batchGo]⟩
  | succ fuel ih =>
    intro attempt reqs waits
    have hshift : ∀ m, (waits ++ [capMin (base * 2 ^ attempt) 30])
          ++ (List.range m).map (fun t => capMin (base * 2 ^ (attempt + 1 + t)) 30)
        = waits ++ (List.range (m + 1)).map (fun t => capMin (base * 2 ^ (attempt + t)) 30) := by
      intro m
      rw [List.append_assoc, List.singleton_append]
      congr 1
      rw [List.range_succ_eq_map, List.map_cons, List.map_map]
      congr 1
      apply List.map_congr_left
      intro t _
      have harith : attempt + 1 + t = attempt + (t + 1) := by omega
      simp [Function.comp, harith]
    rw [get_batchGo]
    split
    · split
      · obtain ⟨m, hm⟩ := ih (attempt + 1) (reqs + 1)
          (waits ++ [capMin (base * 2 ^ attempt) 30])
        exact ⟨m + 1, by rw [hm, hshift m]⟩
      · exact ⟨0, by simp⟩
    · rename_i status ra body heq
      have hraeq : ra = none := by
        have hh := hra reqs
        rw [heq] at hh
        exact Option.isNone_iff_eq_none.mp hh
      subst hraeq
      split
      · exact ⟨0, by simp⟩
      · split
        · split
          · obtain ⟨m, hm⟩ := ih (attempt + 1) (reqs + 1)
              (waits ++ [capMin (base * 2 ^ attempt) 30])
            exact ⟨m + 1, by rw [hm, hshift m]⟩
          · exact ⟨0, by simp⟩
        · exact ⟨0, by simp⟩

/-! The claims. -/

/-- C1: the claim states that a batch whose lookup ends in an empty result is
    dropped from the hydrated output and processing continues with no
    pipeline abort.  get_batch does return an explicit empty list once
    retries are exhausted on a retryable status (first conjunct), but
    hydrate then executes assert(r) on that empty result, raising
    AssertionError and aborting the whole pipeline instead of dropping the
    batch (second conjunct, the failing input: one batch resolving empty). -/
theorem c1_empty_batch_result_aborts :
    (get_batch (fun _ => HttpEvent.resp 429 none Json.null) 4 (4 / 5)).1
        = Except.ok (Json.arr [])
    ∧ hydrate (fun _ => Json.arr []) data1 = Except.error "AssertionError" :=
  ⟨rfl, rfl⟩

/-- C2: for a stream of N distinct qualifying items with N >= k, each item
    (indexed by arrival position j) is present in the final reservoir with
    probability exactly k/N, the probability space being the uniform
    independent draws of random.randint(0, n-1) enumerated by drawsF; the
    result holds for every arrival position j, so it is independent of
    arrival order. -/
theorem c2_uniform_inclusion (N k : Nat) (hk : k ≤ N) (j : Nat) (hj : j < N) :
    (((drawsF k (N - k)).filter (fun ds => j ∈ runR k [] (List.range N) ds)).card : ℚ)
      / ((drawsF k (N - k)).card : ℚ) = (k : ℚ) / (N : ℚ) := by
  have h := reservoir_uniform_nat N k j hk hj
  unfold totalD at h
  have hT : 0 < totalD k (N - k) := totalD_pos k (N - k)
  unfold totalD at hT
  have hT0 : ((drawsF k (N - k)).card : ℚ) ≠ 0 := by exact_mod_cast hT.ne'
  have hN0 : (N : ℚ) ≠ 0 := by
    have hN : 0 < N := by omega
    exact_mod_cast hN.ne'
  rw [div_eq_div_iff hT0 hN0]
  exact_mod_cast h.trans (Nat.mul_comm _ _)

/-- Witness for C2 at N = 3, k = 2, j = 1. -/
theorem c2_uniform_inclusion_witness :
    2 ≤ 3 ∧ 1 < 3
    ∧ (((drawsF 2 (3 - 2)).filter (fun ds => 1 ∈ runR 2 [] (List.range 3) ds)).card : ℚ)
        / ((drawsF 2 (3 - 2)).card : ℚ) = ((2 : Nat) : ℚ) / ((3 : Nat) : ℚ) :=
  ⟨by decide, by decide, c2_uniform_inclusion 3 2 (by decide) 1 (by decide)⟩

/-- C3: the claim states the classification and uri-synthesis step never
    raises.  In the code it does: a commit with operation "create" but no
    record payload reaches record.get("text") with record = None, an
    AttributeError (first conjunct); an otherwise qualifying event with no
    did field reaches "at://" + None, a TypeError (second conjunct). -/
theorem c3_classifier_exceptions :
    classify (Json.obj [("commit", Json.obj [("operation", Json.str "create")])])
        = Except.error "AttributeError"
    ∧ classify (Json.obj [("commit", Json.obj
        [("operation", Json.str "create"), ("collection", Json.str "c"),
         ("rkey", Json.str "r"),
         ("record", Json.obj [("text", Json.str "hi"),
                              ("langs", Json.arr [Json.str "en"])])])])
        = Except.error "TypeError" :=
  ⟨rfl, rfl⟩

/-- C4: on every accepted, deduplicated item the loop increments n before
    deciding placement, queries random.randint(0, n-1) at the incremented n,
    and places the item exactly as Algorithm R prescribes (algorithmRStep,
    transcribed from the spec): append when below capacity, else overwrite
    sample[r] when r < k, else discard. -/
theorem c4_algorithmR_step (k : Nat) (rand : Nat → Nat) (st : SamplerState)
    (evt : Json) (it : Item)
    (hcl : classify evt = Except.ok (some it)) (hnew : it.uri ∉ st.seen) :
    processEvent k rand st evt
      = Except.ok (SamplerState.mk (algorithmRStep k st.sample it (rand (st.n + 1)))
          (insert it.uri st.seen) (st.n + 1), some it) := by
  unfold processEvent
  rw [hcl]
  exact if_neg hnew

/-- Witness for C4: the first accepted event of a run with k = 1. -/
theorem c4_algorithmR_step_witness :
    processEvent 1 (fun _ => 0) (SamplerState.mk [] ∅ 0) evtA
      = Except.ok (SamplerState.mk (algorithmRStep 1 [] itemA 0)
          {"at://d/c/r"} 1, some itemA) :=
  c4_algorithmR_step 1 (fun _ => 0) (SamplerState.mk [] ∅ 0) evtA itemA rfl
    (by simp)

/-- C5: on every run of the sampler that raises no exception, the reservoir
    satisfies len(sample) = min(N, k) where N = n = number of accepted,
    deduplicated items, and len(sample) <= k; quantifying over every event
    list covers every prefix of a stream, so the invariant holds at every
    step. -/
theorem c5_capacity_invariant (k : Nat) (rand : Nat → Nat) (evts : List Json)
    (st : SamplerState) (acc : List Item)
    (h : reservoir_sample k rand evts = Except.ok (st, acc)) :
    st.sample.length = min st.n k ∧ st.n = acc.length ∧ st.sample.length ≤ k := by
  obtain ⟨h1, _, h3, _, _, _⟩ := reservoir_sample_inv k rand evts st acc h
  exact ⟨h3, h1, le_of_eq_of_le h3 (Nat.min_le_right st.n k)⟩

/-- Witness for C5: k = 1 on [evtA, evtA]. -/
theorem c5_capacity_invariant_witness :
    stA.sample.length = min stA.n 1 ∧ stA.n = [itemA].length
      ∧ stA.sample.length ≤ 1 :=
  c5_capacity_invariant 1 (fun _ => 0) [evtA, evtA] stA [itemA] rfl

/-- C6: an accepted item whose uri is already in seen_uris leaves the state
    unchanged — it is discarded before n is incremented and before any
    reservoir placement (first conjunct); over any run, the accepted items
    have pairwise distinct uris, each of the synthesized shape
    "at://" ++ did ++ "/" ++ collection ++ "/" ++ rkey (second conjunct). -/
theorem c6_dedup_identity :
    (∀ (k : Nat) (rand : Nat → Nat) (st : SamplerState) (evt : Json) (it : Item),
        classify evt = Except.ok (some it) → it.uri ∈ st.seen →
        processEvent k rand st evt = Except.ok (st, none))
    ∧ ∀ (k : Nat) (rand : Nat → Nat) (evts : List Json) (st : SamplerState)
        (acc : List Item),
        reservoir_sample k rand evts = Except.ok (st, acc) →
        (acc.map Item.uri).Nodup
          ∧ ∀ it ∈ acc, ∃ c, it.uri = "at://" ++ it.did ++ "/" ++ c ++ "/" ++ it.rkey := by
  constructor
  · intro k rand st evt it hcl hdup
    unfold processEvent
    rw [hcl]
    exact if_pos hdup
  · intro k rand evts st acc h
    obtain ⟨_, _, _, h4, _, h6⟩ := reservoir_sample_inv k rand evts st acc h
    exact ⟨h4, h6⟩

/-- Witness for C6: the duplicate of evtA is discarded with no state change. -/
theorem c6_dedup_identity_witness :
    processEvent 1 (fun _ => 0) stA evtA = Except.ok (stA, none) :=
  c6_dedup_identity.1 1 (fun _ => 0) stA evtA itemA rfl (by decide)

/-- C7: with the default retry budget, three 429 responses followed by a 200
    yield the successful posts after exactly 4 requests, the three waits
    being min(base * 2 ^ t, 30) for t = 0, 1, 2 (first conjunct); a 404
    yields the empty result after exactly 1 request with no wait (second
    conjunct); every wait of any run is capped at 30 seconds (third
    conjunct); and whenever no Retry-After header is present the waits
    double per attempt from the base delay, capped at 30 (fourth
    conjunct). -/
theorem c7_retry_backoff :
    get_batchD respF429
        = (Except.ok (Json.arr [Json.str "p"]), 4,
           [capMin (4 / 5 * 2 ^ 0) 30, capMin (4 / 5 * 2 ^ 1) 30,
            capMin (4 / 5 * 2 ^ 2) 30])
    ∧ get_batchD respF404 = (Except.ok (Json.arr []), 1, [])
    ∧ (∀ (respF : Nat → HttpEvent) (retries : Nat) (base : ℚ),
        ∀ w ∈ (get_batch respF retries base).2.2, w ≤ 30)
    ∧ ∀ (respF : Nat → HttpEvent) (retries : Nat) (base : ℚ),
        (∀ t, noRetryAfter (respF t) = true) →
        ∃ m, (get_batch respF retries base).2.2
          = (List.range m).map (fun t => capMin (base * 2 ^ t) 30) := by
  refine ⟨rfl, rfl, ?_, ?_⟩
  · intro respF retries base w hw
    exact get_batchGo_waits_le respF retries base (retries + 1) 0 0 [] (by simp) w hw
  · intro respF retries base hra
    obtain ⟨m, hm⟩ := get_batchGo_waits_pattern respF retries base hra (retries + 1) 0 0 []
    refine ⟨m, ?_⟩
    unfold get_batch
    rw [hm]
    simp

/-- Witness for C7: the first wait of the 429 run is in the wait list and
    capped at 30. -/
theorem c7_retry_backoff_witness :
    capMin (4 / 5 * 2 ^ 0) 30 ∈ (get_batch respF429 4 (4 / 5)).2.2
    ∧ capMin (4 / 5 * 2 ^ 0) 30 ≤ 30 := by
  have hmem : capMin (4 / 5 * 2 ^ 0) 30 ∈ (get_batch respF429 4 (4 / 5)).2.2 := by
    rw [show (get_batch respF429 4 (4 / 5)).2.2
        = [capMin (4 / 5 * 2 ^ 0) 30, capMin (4 / 5 * 2 ^ 1) 30,
           capMin (4 / 5 * 2 ^ 2) 30] from rfl]
    exact List.mem_cons_self _ _
  exact ⟨hmem, c7_retry_backoff.2.2.1 respF429 4 (4 / 5) _ hmem⟩

/-- C8: the claim states the persisted document holds the trimmed
    eight-field EnrichedItem shape.  The code computes that trimmed item
    (trimItem, second conjunct) but then appends the raw post: on a post
    carrying an extra field the stored element is the full payload, whose
    key set differs from the trimmed shape (first and third conjuncts);
    total does equal the number of stored items (1 here). -/
theorem c8_raw_payload_persisted :
    hydrate (fun _ => Json.arr [post8]) [Json.obj [("uri", Json.str "u")]]
        = Except.ok ([post8], 1, [[Json.str "u"]])
    ∧ trimItem post8 = Except.ok trimmed8
    ∧ Json.keys post8 ≠ Json.keys trimmed8 :=
  ⟨rfl, rfl, by decide⟩

/-- C9: for every input whose entries resolve a uri and every fetch oracle
    answering each batch with a nonempty list of posts, hydrate partitions
    the uris into consecutive batches of at most BATCH_SIZE with all but
    the last of size exactly BATCH_SIZE, and concatenating the batches in
    order reproduces the input uri order (first conjunct); on 103 entries
    exactly 5 batches of sizes [25, 25, 25, 25, 3] are produced, in input
    order (second and third conjuncts). -/
theorem c9_batch_partition :
    (∀ (fetch : List Json → Json) (data : List Json),
      (∀ e ∈ data, ∃ u, pyGet e "uri" = Except.ok u) →
      (∀ b, ∃ posts, posts ≠ [] ∧ fetch b = Json.arr posts) →
      ∃ corpus hyd bs, hydrate fetch data = Except.ok (corpus, hyd, bs)
        ∧ bs.flatten = data.map uriOf
        ∧ (∀ b ∈ bs, b.length ≤ BATCH_SIZE ∧ b ≠ [])
        ∧ (∀ b ∈ bs.dropLast, b.length = BATCH_SIZE))
    ∧ (batchesOf (hydrate fetchA data103)).map (List.map List.length)
        = some [25, 25, 25, 25, 3]
    ∧ (batchesOf (hydrate fetchA data103)).map List.flatten
        = some (data103.map uriOf) := by
  refine ⟨?_, rfl, rfl⟩
  intro fetch data hE hF
  obtain ⟨c', h', bs', hrun, hjoin, hprops, hlast⟩ :=
    hydrateGo_spec fetch hF data [] [] 0 [] hE (by simp)
  rw [List.nil_append] at hrun
  exact ⟨c', h', bs', hrun, by simpa using hjoin, hprops, hlast⟩

/-- Witness for C9 on a one-entry input. -/
theorem c9_batch_partition_witness :
    ∃ corpus hyd bs, hydrate fetchA data1 = Except.ok (corpus, hyd, bs)
      ∧ bs.flatten = data1.map uriOf
      ∧ (∀ b ∈ bs, b.length ≤ BATCH_SIZE ∧ b ≠ [])
      ∧ (∀ b ∈ bs.dropLast, b.length = BATCH_SIZE) :=
  c9_batch_partition.1 fetchA data1
    (by
      intro e he
      simp only [data1, List.mem_singleton] at he
      subst he
      exact ⟨Json.str "a", rfl⟩)
    (fun _ => ⟨[Json.null], by simp, rfl⟩)

/-- C10: on every run of the sampler that raises no exception, the counter
    n equals the number of uris in seen_uris (and the number of accepted
    items), so the seen-identities set grows one per accepted item and is
    not bounded by the reservoir capacity k. -/
theorem c10_seen_tracks_n (k : Nat) (rand : Nat → Nat) (evts : List Json)
    (st : SamplerState) (acc : List Item)
    (h : reservoir_sample k rand evts = Except.ok (st, acc)) :
    st.n = st.seen.card ∧ st.n = acc.length := by
  obtain ⟨h1, h2, _, _, _, _⟩ := reservoir_sample_inv k rand evts st acc h
  exact ⟨h2, h1⟩

/-- Witness for C10: k = 1 on [evtA, evtA]. -/
theorem c10_seen_tracks_n_witness :
    stA.n = stA.seen.card ∧ stA.n = [itemA].length :=
  c10_seen_tracks_n 1 (fun _ => 0) [evtA, evtA] stA [itemA] rfl
